import Mathlib

/-!
Shallow embedding of the changeset engine of the pkmn-scraper repository
(directory changeset/src/arbitrary).  Maps (Rust HashMap) are embedded as
association lists, sets (Rust HashSet / BTreeSet) as lists considered up to
membership; both match the source up to the iteration order of the hash
containers, which the Rust code leaves unspecified.  All statements proved
below are insensitive to that order.
-/

namespace Changeset

/-- Embeds struct Add of changeset/src/arbitrary/change.rs (the struct of the
same shape in changeset/src/arbitrary/mod.rs is identical): a value present in
target, absent in source, at key. -/
structure Add (K V : Type) where
  key : K
  value : V
deriving DecidableEq, Repr

/-- Embeds struct Remove of changeset/src/arbitrary/change.rs (identical in
mod.rs): a value present in source, absent in target, at key. -/
structure Remove (K V : Type) where
  key : K
  value : V
deriving DecidableEq, Repr

/-- Embeds struct Modify of changeset/src/arbitrary/change.rs: a key together
with the value-level diff result; the PhantomData type parameters carry no
data and are dropped. -/
structure Modify (K C : Type) where
  key : K
  modification : C
deriving DecidableEq, Repr

/-- Embeds the older struct Modify of changeset/src/arbitrary/mod.rs, which
stores the source and target values instead of a computed diff. -/
structure ModifyST (K V : Type) where
  key : K
  source : V
  target : V
deriving DecidableEq, Repr

/-- Embeds enum PureChange of changeset/src/arbitrary/change.rs. -/
inductive PureChange (K V : Type) where
  | add (a : Add K V)
  | remove (r : Remove K V)
deriving DecidableEq, Repr

/-- Embeds enum Change of changeset/src/arbitrary/change.rs. -/
inductive Change (K V C : Type) where
  | add (a : Add K V)
  | remove (r : Remove K V)
  | modify (m : Modify K C)
deriving DecidableEq, Repr

/-- Embeds the older enum Change of changeset/src/arbitrary/mod.rs, whose
modify payload stores source and target values. -/
inductive ChangeST (K V : Type) where
  | add (a : Add K V)
  | remove (r : Remove K V)
  | modify (m : ModifyST K V)
deriving DecidableEq, Repr

/-! ### Map differ (changeset/src/arbitrary/std/collections/map.rs)

A HashMap is embedded as an association list; `getVal` embeds HashMap::get.
`diff_with` is parameterised by the value equality `eqV` (the Rust
PartialEq::eq of the value type) and the value-level diff `diffV`
(Modify::from_arbitrary calls source.diff_with(target); from_simple calls
source.simple_diff(target)); this single definition covers both the
ArbitraryMap and the SimpleMap implementation, whose loop bodies are
identical up to that call. -/

variable {K V C α : Type}

/-- Embeds HashMap::get: the value stored at the given key, if any. -/
def getVal [DecidableEq K] : List (K × V) → K → Option V
  | [], _ => none
  | (k', v) :: rest, k => if k = k' then some v else getVal rest k

/-- The keys of a map, in storage order (HashMap::keys). -/
def mapKeys (m : List (K × V)) : List K :=
  m.map Prod.fst

/-- Embeds the key union `self.keys().chain(other.keys()).collect::<HashSet<_>>()`
built at the top of diff_with: all keys of both maps, deduplicated. -/
def allKeys [DecidableEq K] (source target : List (K × V)) : List K :=
  (mapKeys source ++ mapKeys target).dedup

/-- Embeds the classification loop of diff_with: each key of the union is
classified by `(self.get(key), other.get(key))`.  The `(None, None)` arm of
the Rust match is `unreachable!()`, a panic, embedded as `none`. -/
def classifyKeys [DecidableEq K] (eqV : V → V → Bool) (diffV : V → V → C)
    (source target : List (K × V)) :
    List K → Option (List (Add K V) × List (Remove K V) × List (Modify K C))
  | [] => some ([], [], [])
  | k :: ks =>
    match getVal source k, getVal target k with
    | some s, some t =>
      (classifyKeys eqV diffV source target ks).map
        (fun (acc : List (Add K V) × List (Remove K V) × List (Modify K C)) =>
          if eqV s t then acc
          else (acc.1, acc.2.1, ⟨k, diffV s t⟩ :: acc.2.2))
    | some s, none =>
      (classifyKeys eqV diffV source target ks).map
        (fun acc => (acc.1, ⟨k, s⟩ :: acc.2.1, acc.2.2))
    | none, some t =>
      (classifyKeys eqV diffV source target ks).map
        (fun acc => (⟨k, t⟩ :: acc.1, acc.2.1, acc.2.2))
    | none, none => none

/-- Embeds struct ArbitraryMapChangeset (and the structurally identical
SimpleMapChangeset): the three buckets filled by diff_with. -/
structure MapChangeset (K V C : Type) where
  added : List (Add K V)
  removed : List (Remove K V)
  modified : List (Modify K C)
deriving DecidableEq, Repr

/-- Embeds ArbitraryDiff::diff_with for HashMap: build the key union, classify
every key, and pack the three buckets.  The result is `none` exactly when the
`unreachable!()` panic would be taken. -/
def diff_with [DecidableEq K] (eqV : V → V → Bool) (diffV : V → V → C)
    (source target : List (K × V)) : Option (MapChangeset K V C) :=
  (classifyKeys eqV diffV source target (allKeys source target)).map
    (fun acc => ⟨acc.1, acc.2.1, acc.2.2⟩)

/-- The changeset produced by diff_with (total form; by theorem
`diff_with_never_panics` below the panic branch is never taken, so the
default is never used). -/
def mapDiff [DecidableEq K] (eqV : V → V → Bool) (diffV : V → V → C)
    (source target : List (K × V)) : MapChangeset K V C :=
  (diff_with eqV diffV source target).getD ⟨[], [], []⟩

/-- Embeds PureChangeset::is_empty for ArbitraryMapChangeset:
added, removed and modified all empty. -/
def MapChangeset.is_empty (cs : MapChangeset K V C) : Bool :=
  cs.added.isEmpty && cs.removed.isEmpty && cs.modified.isEmpty

/-- The keys of the added bucket. -/
def MapChangeset.addedKeys (cs : MapChangeset K V C) : List K :=
  cs.added.map Add.key

/-- The keys of the removed bucket. -/
def MapChangeset.removedKeys (cs : MapChangeset K V C) : List K :=
  cs.removed.map Remove.key

/-- The keys of the modified bucket. -/
def MapChangeset.modifiedKeys (cs : MapChangeset K V C) : List K :=
  cs.modified.map Modify.key

/-! ### Set differ (changeset/src/arbitrary/std/collections/set.rs) -/

/-- Embeds struct SetChangeset: the elements added and removed. -/
structure SetChangeset (α : Type) where
  added : List α
  removed : List α
deriving DecidableEq, Repr

/-- Embeds ArbitraryChangeset::changeset_to of the set_changeset! macro
(instantiated at HashSet and BTreeSet): added is `other.difference(self)`,
removed is `self.difference(other)`. -/
def changeset_to [DecidableEq α] (source target : List α) : SetChangeset α :=
  { added := target.filter (fun x => !(decide (x ∈ source)))
    removed := source.filter (fun x => !(decide (x ∈ target))) }

/-- Embeds Changeset::is_empty for SetChangeset: added and removed empty. -/
def SetChangeset.is_empty (cs : SetChangeset α) : Bool :=
  cs.added.isEmpty && cs.removed.isEmpty

/-- Embeds Changeset::additions for SetChangeset: each added element becomes
an Add record whose key and value are both that element. -/
def SetChangeset.additionsList (cs : SetChangeset α) : List (Add α α) :=
  cs.added.map (fun v => ⟨v, v⟩)

/-- Embeds Changeset::removals for SetChangeset: each removed element becomes
a Remove record whose key and value are both that element. -/
def SetChangeset.removalsList (cs : SetChangeset α) : List (Remove α α) :=
  cs.removed.map (fun v => ⟨v, v⟩)

/-- Embeds Changeset::modifications for SetChangeset:
`Modifications::new(std::iter::empty())`, the statically empty sequence. -/
def SetChangeset.modificationsList (_cs : SetChangeset α) : List (ModifyST α α) :=
  []

/-! ### The set-valued map instance (the repository diffs HashMap<K, HashSet<T>>,
see the test in map.rs and spec scenario A) -/

/-- Embeds PartialEq::eq of a hash set: two sets are equal when each contains
every element of the other. -/
def setEqb [DecidableEq α] (s t : List α) : Bool :=
  decide (∀ x ∈ s, x ∈ t) && decide (∀ x ∈ t, x ∈ s)

/-- Modelled from the spec: the HasChanges implementation for a set changeset
is missing from the source tree (only the trait is declared in change.rs);
per the spec, `has_changes` reports whether the diff result represents an
actual difference, i.e. the negation of is_empty. -/
def setHasChanges (cs : SetChangeset α) : Bool :=
  !cs.is_empty

/-- diff_with for maps whose values are sets, the instantiation the
repository exercises: value equality is set equality, the value-level diff
is the set differ. -/
def mapSetDiff [DecidableEq K] [DecidableEq α] (source target : List (K × List α)) :
    MapChangeset K (List α) (SetChangeset α) :=
  mapDiff setEqb changeset_to source target

/-! ### Iterator adapters (changeset/src/arbitrary/iterators.rs, and the
identical InfallibleIter in changeset/src/arbitrary/mod.rs)

A Rust iterator over a precomputed bucket is embedded as a list of the
remaining items; InfallibleIter wraps it in an Option that becomes `none`
once the inner iterator is observed exhausted.  Each `next` function returns
the yielded item together with the successor state, mirroring the `&mut self`
update of the Rust code. -/

/-- Embeds Iterator::next of InfallibleIter: while the inner iterator is
present, forward its next item; the first time it yields nothing, drop it so
every later call returns nothing without touching it again. -/
def nextInf : Option (List α) → Option α × Option (List α)
  | none => (none, none)
  | some [] => (none, none)
  | some (x :: xs) => (some x, some xs)

/-- n+1 iterated calls of nextInf: the result of the last call after first
advancing the state n times. -/
def nextInfN : Nat → Option (List α) → Option α × Option (List α)
  | 0, st => nextInf st
  | n + 1, st => nextInfN n (nextInf st).2

/-- Embeds Iterator::next of Additions, which forwards to its InfallibleIter. -/
def nextAdditions (st : Option (List (Add K V))) :
    Option (Add K V) × Option (List (Add K V)) :=
  nextInf st

/-- Embeds Iterator::next of Removals, which forwards to its InfallibleIter. -/
def nextRemovals (st : Option (List (Remove K V))) :
    Option (Remove K V) × Option (List (Remove K V)) :=
  nextInf st

/-- Embeds Iterator::next of Modifications, which forwards to its
InfallibleIter. -/
def nextModifications (st : Option (List (Modify K C))) :
    Option (Modify K C) × Option (List (Modify K C)) :=
  nextInf st

/-- The state of a PureChanges iterator: its Additions and Removals parts. -/
structure PCState (K V : Type) where
  additions : Option (List (Add K V))
  removals : Option (List (Remove K V))
deriving DecidableEq, Repr

/-- Embeds Iterator::next of PureChanges (iterators.rs):
`self.additions.next().map(Add).or_else(|| self.removals.next().map(Remove))`.
The additions iterator is advanced unconditionally; the removals iterator only
once the additions report nothing. -/
def nextPure (st : PCState K V) : Option (PureChange K V) × PCState K V :=
  match nextInf st.additions with
  | (some a, additions') => (some (.add a), ⟨additions', st.removals⟩)
  | (none, additions') =>
    match nextInf st.removals with
    | (some r, removals') => (some (.remove r), ⟨additions', removals'⟩)
    | (none, removals') => (none, ⟨additions', removals'⟩)

/-- The state of a Changes iterator (iterators.rs): a PureChanges part and a
Modifications part. -/
structure ChangesState (K V C : Type) where
  pure : PCState K V
  modifications : Option (List (Modify K C))
deriving DecidableEq, Repr

/-- Embeds Iterator::next of Changes (iterators.rs):
`self.pure_changes.next().map(Into::into).or_else(|| self.modifications.next().map(Modify))`. -/
def nextChanges (st : ChangesState K V C) : Option (Change K V C) × ChangesState K V C :=
  match nextPure st.pure with
  | (some (.add a), pure') => (some (.add a), ⟨pure', st.modifications⟩)
  | (some (.remove r), pure') => (some (.remove r), ⟨pure', st.modifications⟩)
  | (none, pure') =>
    match nextInf st.modifications with
    | (some m, mods') => (some (.modify m), ⟨pure', mods'⟩)
    | (none, mods') => (none, ⟨pure', mods'⟩)

/-- The state of the older Changes iterator (mod.rs): three separate
iterator parts. -/
structure ChangesStateST (K V : Type) where
  additions : Option (List (Add K V))
  removals : Option (List (Remove K V))
  modifications : Option (List (ModifyST K V))
deriving DecidableEq, Repr

/-- Embeds Iterator::next of the older Changes (mod.rs):
`self.additions.next().map(Add).or_else(|| self.modifications.next().map(Modify)
.or_else(|| self.removals.next().map(Remove)))` — additions, then
modifications, then removals. -/
def nextChangesST (st : ChangesStateST K V) :
    Option (ChangeST K V) × ChangesStateST K V :=
  match nextInf st.additions with
  | (some a, additions') => (some (.add a), ⟨additions', st.removals, st.modifications⟩)
  | (none, additions') =>
    match nextInf st.modifications with
    | (some m, mods') => (some (.modify m), ⟨additions', st.removals, mods'⟩)
    | (none, mods') =>
      match nextInf st.removals with
      | (some r, removals') => (some (.remove r), ⟨additions', removals', mods'⟩)
      | (none, removals') => (none, ⟨additions', removals', mods'⟩)

/-- Drain a PureChanges iterator: repeatedly call next, collecting yielded
items, for at most `fuel` steps. -/
def drainPure : Nat → PCState K V → List (PureChange K V)
  | 0, _ => []
  | fuel + 1, st =>
    match nextPure st with
    | (none, _) => []
    | (some x, st') => x :: drainPure fuel st'

/-- Drain a Changes iterator (iterators.rs) for at most `fuel` steps. -/
def drainChanges : Nat → ChangesState K V C → List (Change K V C)
  | 0, _ => []
  | fuel + 1, st =>
    match nextChanges st with
    | (none, _) => []
    | (some x, st') => x :: drainChanges fuel st'

/-- Drain an older Changes iterator (mod.rs) for at most `fuel` steps. -/
def drainChangesST : Nat → ChangesStateST K V → List (ChangeST K V)
  | 0, _ => []
  | fuel + 1, st =>
    match nextChangesST st with
    | (none, _) => []
    | (some x, st') => x :: drainChangesST fuel st'

/-- The initial PureChanges state for a map changeset, as built by
PureChangeset::pure_changes: fresh Additions and Removals iterators over the
buckets. -/
def MapChangeset.pureInit (cs : MapChangeset K V C) : PCState K V :=
  ⟨some cs.added, some cs.removed⟩

/-- The initial Changes state for a map changeset, as built by
FullChangeset::changes: fresh Additions, Removals and Modifications
iterators over the buckets. -/
def MapChangeset.changesInit (cs : MapChangeset K V C) : ChangesState K V C :=
  ⟨⟨some cs.added, some cs.removed⟩, some cs.modified⟩

/-- The initial Changes state for a set changeset, as built by
Changeset::changes in mod.rs from Changeset::additions, removals and
modifications of SetChangeset. -/
def SetChangeset.changesInit (cs : SetChangeset α) : ChangesStateST α α :=
  ⟨some cs.additionsList, some cs.removalsList, some cs.modificationsList⟩

/-! ### Characterisation of the classification loop -/

/-- The added bucket the classification loop produces over a given key list:
keys absent from source and present in target. -/
def addOf [DecidableEq K] (source target : List (K × V)) (ks : List K) : List (Add K V) :=
  ks.filterMap (fun k =>
    match getVal source k, getVal target k with
    | none, some t => some ⟨k, t⟩
    | _, _ => none)

/-- The removed bucket the classification loop produces over a given key
list: keys present in source and absent from target. -/
def remOf [DecidableEq K] (source target : List (K × V)) (ks : List K) : List (Remove K V) :=
  ks.filterMap (fun k =>
    match getVal source k, getVal target k with
    | some s, none => some ⟨k, s⟩
    | _, _ => none)

/-- The modified bucket the classification loop produces over a given key
list: keys present in both whose values the value equality rejects. -/
def modOf [DecidableEq K] (eqV : V → V → Bool) (diffV : V → V → C)
    (source target : List (K × V)) (ks : List K) : List (Modify K C) :=
  ks.filterMap (fun k =>
    match getVal source k, getVal target k with
    | some s, some t => if eqV s t then none else some ⟨k, diffV s t⟩
    | _, _ => none)

theorem getVal_isSome_iff [DecidableEq K] (m : List (K × V)) (k : K) :
    (getVal m k).isSome ↔ k ∈ mapKeys m := by
  induction m with
  | nil => simp [getVal, mapKeys]
  | cons p rest ih =>
    obtain ⟨k', v⟩ := p
    by_cases h : k = k'
    · simp [getVal, mapKeys, h]
    · simpa [getVal, mapKeys, h] using ih

theorem getVal_eq_none_iff [DecidableEq K] (m : List (K × V)) (k : K) :
    getVal m k = none ↔ k ∉ mapKeys m := by
  rw [← getVal_isSome_iff]
  cases getVal m k <;> simp

theorem mem_allKeys [DecidableEq K] (source target : List (K × V)) (k : K) :
    k ∈ allKeys source target ↔ k ∈ mapKeys source ∨ k ∈ mapKeys target := by
  simp [allKeys]

theorem classifyKeys_eq [DecidableEq K] (eqV : V → V → Bool) (diffV : V → V → C)
    (source target : List (K × V)) (ks : List K)
    (h : ∀ k ∈ ks, (getVal source k).isSome ∨ (getVal target k).isSome) :
    classifyKeys eqV diffV source target ks =
      some (addOf source target ks, remOf source target ks,
        modOf eqV diffV source target ks) := by
  induction ks with
  | nil => simp [classifyKeys, addOf, remOf, modOf]
  | cons k ks ih =>
    have hk := h k (List.mem_cons_self k ks)
    have hks : ∀ k ∈ ks, (getVal source k).isSome ∨ (getVal target k).isSome :=
      fun k hmem => h k (List.mem_cons_of_mem _ hmem)
    rcases hs : getVal source k with _ | sv <;> rcases ht : getVal target k with _ | tv
    · rw [hs, ht] at hk
      simp at hk
    · simp [classifyKeys, hs, ht, ih hks, addOf, remOf, modOf, List.filterMap_cons]
    · simp [classifyKeys, hs, ht, ih hks, addOf, remOf, modOf, List.filterMap_cons]
    · by_cases he : eqV sv tv <;>
        simp [classifyKeys, hs, ht, ih hks, addOf, remOf, modOf,
          List.filterMap_cons, he]

theorem allKeys_isSome [DecidableEq K] (source target : List (K × V)) :
    ∀ k ∈ allKeys source target,
      (getVal source k).isSome ∨ (getVal target k).isSome := by
  intro k hk
  rw [mem_allKeys] at hk
  rcases hk with hk | hk
  · exact Or.inl ((getVal_isSome_iff source k).2 hk)
  · exact Or.inr ((getVal_isSome_iff target k).2 hk)

theorem diff_with_eq [DecidableEq K] (eqV : V → V → Bool) (diffV : V → V → C)
    (source target : List (K × V)) :
    diff_with eqV diffV source target =
      some ⟨addOf source target (allKeys source target),
        remOf source target (allKeys source target),
        modOf eqV diffV source target (allKeys source target)⟩ := by
  rw [diff_with, classifyKeys_eq eqV diffV source target _
    (allKeys_isSome source target)]
  rfl

theorem mapDiff_eq [DecidableEq K] (eqV : V → V → Bool) (diffV : V → V → C)
    (source target : List (K × V)) :
    mapDiff eqV diffV source target =
      ⟨addOf source target (allKeys source target),
        remOf source target (allKeys source target),
        modOf eqV diffV source target (allKeys source target)⟩ := by
  rw [mapDiff, diff_with_eq]
  rfl

theorem mem_addOf [DecidableEq K] (source target : List (K × V)) (ks : List K)
    (a : Add K V) :
    a ∈ addOf source target ks ↔
      a.key ∈ ks ∧ getVal source a.key = none ∧ getVal target a.key = some a.value := by
  simp only [addOf, List.mem_filterMap]
  constructor
  · rintro ⟨k, hk, hf⟩
    rcases hs : getVal source k with _ | sv <;> rcases ht : getVal target k with _ | tv <;>
      rw [hs, ht] at hf <;> simp at hf
    obtain ⟨rfl, rfl⟩ := (by simpa using congrArg (fun x => (x.key, x.value)) hf :
      k = a.key ∧ tv = a.value)
    exact ⟨hk, hs, ht⟩
  · rintro ⟨hk, hs, ht⟩
    exact ⟨a.key, hk, by rw [hs, ht]⟩

theorem mem_remOf [DecidableEq K] (source target : List (K × V)) (ks : List K)
    (r : Remove K V) :
    r ∈ remOf source target ks ↔
      r.key ∈ ks ∧ getVal source r.key = some r.value ∧ getVal target r.key = none := by
  simp only [remOf, List.mem_filterMap]
  constructor
  · rintro ⟨k, hk, hf⟩
    rcases hs : getVal source k with _ | sv <;> rcases ht : getVal target k with _ | tv <;>
      rw [hs, ht] at hf <;> simp at hf
    obtain ⟨rfl, rfl⟩ := (by simpa using congrArg (fun x => (x.key, x.value)) hf :
      k = r.key ∧ sv = r.value)
    exact ⟨hk, hs, ht⟩
  · rintro ⟨hk, hs, ht⟩
    exact ⟨r.key, hk, by rw [hs, ht]⟩

theorem mem_modOf [DecidableEq K] (eqV : V → V → Bool) (diffV : V → V → C)
    (source target : List (K × V)) (ks : List K) (m : Modify K C) :
    m ∈ modOf eqV diffV source target ks ↔
      m.key ∈ ks ∧ ∃ sv tv, getVal source m.key = some sv ∧
        getVal target m.key = some tv ∧ eqV sv tv = false ∧
        m.modification = diffV sv tv := by
  simp only [modOf, List.mem_filterMap]
  constructor
  · rintro ⟨k, hk, hf⟩
    rcases hs : getVal source k with _ | sv <;> rcases ht : getVal target k with _ | tv <;>
      rw [hs, ht] at hf <;> simp at hf
    obtain ⟨he, hf⟩ := hf
    subst hf
    exact ⟨hk, sv, tv, hs, ht, he, rfl⟩
  · rintro ⟨hk, sv, tv, hs, ht, he, hmod⟩
    obtain ⟨mkey, mmod⟩ := m
    simp only at hk hs ht hmod
    subst hmod
    refine ⟨mkey, hk, ?_⟩
    rw [hs, ht]
    simp [he]

theorem mem_addedKeys [DecidableEq K] (eqV : V → V → Bool) (diffV : V → V → C)
    (source target : List (K × V)) (k : K) :
    k ∈ (mapDiff eqV diffV source target).addedKeys ↔
      getVal source k = none ∧ (getVal target k).isSome := by
  rw [mapDiff_eq]
  simp only [MapChangeset.addedKeys, List.mem_map]
  constructor
  · rintro ⟨a, ha, rfl⟩
    rw [mem_addOf] at ha
    exact ⟨ha.2.1, by rw [ha.2.2]; rfl⟩
  · rintro ⟨hs, ht⟩
    obtain ⟨v, hv⟩ := Option.isSome_iff_exists.1 ht
    refine ⟨⟨k, v⟩, ?_, rfl⟩
    rw [mem_addOf]
    exact ⟨(mem_allKeys source target k).2
      (Or.inr ((getVal_isSome_iff target k).1 ht)), hs, hv⟩

theorem mem_removedKeys [DecidableEq K] (eqV : V → V → Bool) (diffV : V → V → C)
    (source target : List (K × V)) (k : K) :
    k ∈ (mapDiff eqV diffV source target).removedKeys ↔
      (getVal source k).isSome ∧ getVal target k = none := by
  rw [mapDiff_eq]
  simp only [MapChangeset.removedKeys, List.mem_map]
  constructor
  · rintro ⟨r, hr, rfl⟩
    rw [mem_remOf] at hr
    exact ⟨by rw [hr.2.1]; rfl, hr.2.2⟩
  · rintro ⟨hs, ht⟩
    obtain ⟨v, hv⟩ := Option.isSome_iff_exists.1 hs
    refine ⟨⟨k, v⟩, ?_, rfl⟩
    rw [mem_remOf]
    exact ⟨(mem_allKeys source target k).2
      (Or.inl ((getVal_isSome_iff source k).1 hs)), hv, ht⟩

theorem mem_modifiedKeys [DecidableEq K] (eqV : V → V → Bool) (diffV : V → V → C)
    (source target : List (K × V)) (k : K) :
    k ∈ (mapDiff eqV diffV source target).modifiedKeys ↔
      ∃ sv tv, getVal source k = some sv ∧ getVal target k = some tv ∧
        eqV sv tv = false := by
  rw [mapDiff_eq]
  simp only [MapChangeset.modifiedKeys, List.mem_map]
  constructor
  · rintro ⟨m, hm, rfl⟩
    rw [mem_modOf] at hm
    obtain ⟨_, sv, tv, hs, ht, he, _⟩ := hm
    exact ⟨sv, tv, hs, ht, he⟩
  · rintro ⟨sv, tv, hs, ht, he⟩
    refine ⟨⟨k, diffV sv tv⟩, ?_, rfl⟩
    rw [mem_modOf]
    exact ⟨(mem_allKeys source target k).2
      (Or.inl ((getVal_isSome_iff source k).1 (by rw [hs]; rfl))), sv, tv, hs, ht, he, rfl⟩

/-! ### Claim theorems -/

/-- C7: with the key union built from exactly the keys of source and target —
as diff_with does — the `(None, None)` classification arm (the `unreachable!`
defensive panic, embedded as `none`) is never taken, for any pair of input
maps and any value strategy. -/
theorem diff_with_never_panics [DecidableEq K] (eqV : V → V → Bool)
    (diffV : V → V → C) (source target : List (K × V)) :
    (diff_with eqV diffV source target).isSome = true := by
  rw [diff_with_eq]
  rfl

/-- C1: the map differ partitions the key union exactly: a key belongs to the
union of the two key sets iff it lies in the added bucket, the removed bucket
or the compared set (present in both maps), and these three are pairwise
disjoint; in particular no key outside the union appears in any bucket. -/
theorem mapDiff_partitions_keys [DecidableEq K] (eqV : V → V → Bool)
    (diffV : V → V → C) (source target : List (K × V)) (k : K) :
    ((k ∈ mapKeys source ∨ k ∈ mapKeys target) ↔
      (k ∈ (mapDiff eqV diffV source target).addedKeys ∨
        k ∈ (mapDiff eqV diffV source target).removedKeys ∨
        (k ∈ mapKeys source ∧ k ∈ mapKeys target))) ∧
    ¬(k ∈ (mapDiff eqV diffV source target).addedKeys ∧
        k ∈ (mapDiff eqV diffV source target).removedKeys) ∧
    ¬(k ∈ (mapDiff eqV diffV source target).addedKeys ∧
        (k ∈ mapKeys source ∧ k ∈ mapKeys target)) ∧
    ¬(k ∈ (mapDiff eqV diffV source target).removedKeys ∧
        (k ∈ mapKeys source ∧ k ∈ mapKeys target)) := by
  have hs' := getVal_isSome_iff source k
  have ht' := getVal_isSome_iff target k
  have hA := mem_addedKeys eqV diffV source target k
  have hR := mem_removedKeys eqV diffV source target k
  rcases hgs : getVal source k with _ | sv <;> rcases hgt : getVal target k with _ | tv <;>
    rw [hgs] at hs' hA hR <;> rw [hgt] at ht' hA hR <;>
    simp only [Option.isSome_none, Option.isSome_some, Bool.false_eq_true,
      false_iff, true_iff, false_and, and_false, and_true, true_and,
      reduceCtorEq, iff_false, iff_true] at hs' ht' hA hR <;>
    tauto

/-- C5: diffing a collection against itself yields an empty changeset — for
any map (with a reflexive value equality, as PartialEq is for the
repository's value types) and for any set. -/
theorem diff_self_is_empty [DecidableEq K] [DecidableEq α] (eqV : V → V → Bool)
    (diffV : V → V → C) (hrefl : ∀ v, eqV v v = true) :
    (∀ A : List (K × V), (mapDiff eqV diffV A A).is_empty = true) ∧
    (∀ A : List α, (changeset_to A A).is_empty = true) := by
  constructor
  · intro A
    rw [mapDiff_eq, MapChangeset.is_empty]
    simp only [addOf, remOf, modOf, List.isEmpty_iff, Bool.and_eq_true,
      List.filterMap_eq_nil_iff]
    refine ⟨⟨?_, ?_⟩, ?_⟩ <;>
      · intro k _
        rcases h : getVal A k with _ | v <;> simp [h, hrefl]
  · intro A
    rw [SetChangeset.is_empty, changeset_to]
    simp

/-- C6: add/remove duality — the additions of diff(A, B) are exactly the
removals of diff(B, A) as key/value pairs, and vice versa, both for the map
differ and for the set differ. -/
theorem diff_duality [DecidableEq K] [DecidableEq α] (eqV : V → V → Bool)
    (diffV : V → V → C) (A B : List (K × V)) (k : K) (v : V)
    (S T : List α) (x : α) :
    ((⟨k, v⟩ : Add K V) ∈ (mapDiff eqV diffV A B).added ↔
      (⟨k, v⟩ : Remove K V) ∈ (mapDiff eqV diffV B A).removed) ∧
    ((⟨k, v⟩ : Remove K V) ∈ (mapDiff eqV diffV A B).removed ↔
      (⟨k, v⟩ : Add K V) ∈ (mapDiff eqV diffV B A).added) ∧
    (x ∈ (changeset_to S T).added ↔ x ∈ (changeset_to T S).removed) ∧
    (x ∈ (changeset_to S T).removed ↔ x ∈ (changeset_to T S).added) := by
  refine ⟨?_, ?_, ?_, ?_⟩
  · rw [mapDiff_eq, mapDiff_eq]
    simp only [mem_addOf, mem_remOf, mem_allKeys]
    tauto
  · rw [mapDiff_eq, mapDiff_eq]
    simp only [mem_addOf, mem_remOf, mem_allKeys]
    tauto
  · simp [changeset_to, List.mem_filter]
  · simp [changeset_to, List.mem_filter]

/-- C4: the set differ computes additions as the set difference
target − source and removals as source − target, and its modifications are
the statically empty sequence, whose iterator yields nothing for every
input. -/
theorem set_diff_is_difference [DecidableEq α] (source target : List α) :
    (∀ x, x ∈ (changeset_to source target).added ↔ x ∈ target ∧ x ∉ source) ∧
    (∀ x, x ∈ (changeset_to source target).removed ↔ x ∈ source ∧ x ∉ target) ∧
    (changeset_to source target).modificationsList = [] ∧
    nextInf (some ((changeset_to source target).modificationsList)) = (none, none) := by
  refine ⟨fun x => ?_, fun x => ?_, rfl, rfl⟩ <;>
    simp [changeset_to, List.mem_filter]

/-- C10: every Add and Remove record a set changeset yields has its key equal
to its value: the element itself is both key and value. -/
theorem set_changes_key_eq_value [DecidableEq α] (source target : List α) :
    (∀ a ∈ (changeset_to source target).additionsList, a.key = a.value) ∧
    (∀ r ∈ (changeset_to source target).removalsList, r.key = r.value) := by
  constructor <;>
    · intro c hc
      simp only [SetChangeset.additionsList, SetChangeset.removalsList,
        List.mem_map] at hc
      obtain ⟨v, _, rfl⟩ := hc
      rfl

/-- Witness for C10 at a concrete input (spec scenario B): source {1,2,3},
target {2,3,4}; the Add record for 4 and the Remove record for 1 both have
key = value. -/
theorem set_changes_key_eq_value_witness :
    ((⟨4, 4⟩ : Add Nat Nat) ∈ (changeset_to [1, 2, 3] [2, 3, 4]).additionsList ∧
      (⟨4, 4⟩ : Add Nat Nat).key = (⟨4, 4⟩ : Add Nat Nat).value) ∧
    ((⟨1, 1⟩ : Remove Nat Nat) ∈ (changeset_to [1, 2, 3] [2, 3, 4]).removalsList ∧
      (⟨1, 1⟩ : Remove Nat Nat).key = (⟨1, 1⟩ : Remove Nat Nat).value) :=
  ⟨⟨by decide, (set_changes_key_eq_value [1, 2, 3] [2, 3, 4]).1 ⟨4, 4⟩ (by decide)⟩,
    ⟨by decide, (set_changes_key_eq_value [1, 2, 3] [2, 3, 4]).2 ⟨1, 1⟩ (by decide)⟩⟩

/-- Witness for C5 at concrete inputs: equality on Nat is reflexive, and
diffing a two-entry map (and a three-element set) against itself is empty. -/
theorem diff_self_is_empty_witness :
    (∀ v : Nat, (fun a b : Nat => decide (a = b)) v v = true) ∧
    (mapDiff (fun a b : Nat => decide (a = b)) (fun a b : Nat => a + b)
      [(1, 2), (3, 4)] [(1, 2), (3, 4)]).is_empty = true ∧
    (changeset_to ([1, 2, 3] : List Nat) [1, 2, 3]).is_empty = true :=
  ⟨fun v => by simp,
    (diff_self_is_empty (α := Nat) (fun a b : Nat => decide (a = b))
      (fun a b : Nat => a + b) (fun v => by simp)).1 [(1, 2), (3, 4)],
    (diff_self_is_empty (K := Nat) (V := Nat) (C := Nat)
      (fun a b : Nat => decide (a = b)) (fun a b : Nat => a + b)
      (fun v => by simp)).2 [1, 2, 3]⟩

/-! ### Iterator lemmas -/

theorem nextInf_fst_none {st : Option (List α)} (h : (nextInf st).1 = none) :
    (nextInf st).2 = none := by
  rcases st with _ | (_ | ⟨x, xs⟩) <;> simp [nextInf] at h ⊢

theorem nextInfN_of_none (n : Nat) :
    nextInfN n (none : Option (List α)) = (none, none) := by
  induction n with
  | zero => rfl
  | succ n ih => simpa [nextInfN, nextInf] using ih

theorem infallible_stable {st : Option (List α)} (h : (nextInf st).1 = none) :
    ∀ n, nextInfN n (nextInf st).2 = (none, none) := by
  intro n
  rw [nextInf_fst_none h]
  exact nextInfN_of_none n

theorem drainPure_removals (aSt : Option (List (Add K V)))
    (hA : aSt = none ∨ aSt = some []) (rems : List (Remove K V)) :
    ∀ fuel, rems.length ≤ fuel →
      drainPure fuel ⟨aSt, some rems⟩ = rems.map PureChange.remove := by
  induction rems generalizing aSt with
  | nil =>
    intro fuel _
    cases fuel with
    | zero => rfl
    | succ n => rcases hA with rfl | rfl <;> rfl
  | cons r rs ih =>
    intro fuel hfuel
    cases fuel with
    | zero => simp at hfuel
    | succ n =>
      have hn : rs.length ≤ n := by simp at hfuel; omega
      rcases hA with rfl | rfl <;>
        simp [drainPure, nextPure, nextInf, ih none (Or.inl rfl) n hn]

theorem drainPure_eq (adds : List (Add K V)) (rems : List (Remove K V)) :
    ∀ fuel, adds.length + rems.length ≤ fuel →
      drainPure fuel ⟨some adds, some rems⟩ =
        adds.map PureChange.add ++ rems.map PureChange.remove := by
  induction adds with
  | nil =>
    intro fuel hfuel
    simpa using drainPure_removals (some []) (Or.inr rfl) rems fuel
      (by simpa using hfuel)
  | cons a as ih =>
    intro fuel hfuel
    cases fuel with
    | zero => simp at hfuel
    | succ n =>
      have hn : as.length + rems.length ≤ n := by simp at hfuel; omega
      simp [drainPure, nextPure, nextInf, ih n hn]

theorem drainChanges_mods (aSt : Option (List (Add K V)))
    (rSt : Option (List (Remove K V))) (hA : aSt = none ∨ aSt = some [])
    (hR : rSt = none ∨ rSt = some []) (mods : List (Modify K C)) :
    ∀ fuel, mods.length ≤ fuel →
      drainChanges fuel ⟨⟨aSt, rSt⟩, some mods⟩ = mods.map Change.modify := by
  induction mods generalizing aSt rSt with
  | nil =>
    intro fuel _
    cases fuel with
    | zero => rfl
    | succ n => rcases hA with rfl | rfl <;> rcases hR with rfl | rfl <;> rfl
  | cons m ms ih =>
    intro fuel hfuel
    cases fuel with
    | zero => simp at hfuel
    | succ n =>
      have hn : ms.length ≤ n := by simp at hfuel; omega
      rcases hA with rfl | rfl <;> rcases hR with rfl | rfl <;>
        simp [drainChanges, nextChanges, nextPure, nextInf,
          ih none none (Or.inl rfl) (Or.inl rfl) n hn]

theorem drainChanges_rems (aSt : Option (List (Add K V)))
    (hA : aSt = none ∨ aSt = some []) (rems : List (Remove K V))
    (mods : List (Modify K C)) :
    ∀ fuel, rems.length + mods.length ≤ fuel →
      drainChanges fuel ⟨⟨aSt, some rems⟩, some mods⟩ =
        rems.map Change.remove ++ mods.map Change.modify := by
  induction rems generalizing aSt with
  | nil =>
    intro fuel hfuel
    simpa using drainChanges_mods aSt (some []) hA (Or.inr rfl) mods fuel
      (by simpa using hfuel)
  | cons r rs ih =>
    intro fuel hfuel
    cases fuel with
    | zero => simp at hfuel
    | succ n =>
      have hn : rs.length + mods.length ≤ n := by simp at hfuel; omega
      rcases hA with rfl | rfl <;>
        simp [drainChanges, nextChanges, nextPure, nextInf,
          ih none (Or.inl rfl) n hn]

theorem drainChanges_eq (adds : List (Add K V)) (rems : List (Remove K V))
    (mods : List (Modify K C)) :
    ∀ fuel, adds.length + rems.length + mods.length ≤ fuel →
      drainChanges fuel ⟨⟨some adds, some rems⟩, some mods⟩ =
        adds.map Change.add ++ rems.map Change.remove ++ mods.map Change.modify := by
  induction adds with
  | nil =>
    intro fuel hfuel
    simpa using drainChanges_rems (some []) (Or.inr rfl) rems mods fuel
      (by simp at hfuel ⊢; omega)
  | cons a as ih =>
    intro fuel hfuel
    cases fuel with
    | zero => simp at hfuel
    | succ n =>
      have hn : as.length + rems.length + mods.length ≤ n := by simp at hfuel; omega
      simp [drainChanges, nextChanges, nextPure, nextInf, ih n hn]

theorem drainChangesST_rems (aSt : Option (List (Add K V)))
    (mSt : Option (List (ModifyST K V))) (hA : aSt = none ∨ aSt = some [])
    (hM : mSt = none ∨ mSt = some []) (rems : List (Remove K V)) :
    ∀ fuel, rems.length ≤ fuel →
      drainChangesST fuel ⟨aSt, some rems, mSt⟩ = rems.map ChangeST.remove := by
  induction rems generalizing aSt mSt with
  | nil =>
    intro fuel _
    cases fuel with
    | zero => rfl
    | succ n => rcases hA with rfl | rfl <;> rcases hM with rfl | rfl <;> rfl
  | cons r rs ih =>
    intro fuel hfuel
    cases fuel with
    | zero => simp at hfuel
    | succ n =>
      have hn : rs.length ≤ n := by simp at hfuel; omega
      rcases hA with rfl | rfl <;> rcases hM with rfl | rfl <;>
        simp [drainChangesST, nextChangesST, nextInf,
          ih none none (Or.inl rfl) (Or.inl rfl) n hn]

theorem drainChangesST_mods (aSt : Option (List (Add K V)))
    (hA : aSt = none ∨ aSt = some []) (mods : List (ModifyST K V))
    (rems : List (Remove K V)) :
    ∀ fuel, mods.length + rems.length ≤ fuel →
      drainChangesST fuel ⟨aSt, some rems, some mods⟩ =
        mods.map ChangeST.modify ++ rems.map ChangeST.remove := by
  induction mods generalizing aSt with
  | nil =>
    intro fuel hfuel
    simpa using drainChangesST_rems aSt (some []) hA (Or.inr rfl) rems fuel
      (by simpa using hfuel)
  | cons m ms ih =>
    intro fuel hfuel
    cases fuel with
    | zero => simp at hfuel
    | succ n =>
      have hn : ms.length + rems.length ≤ n := by simp at hfuel; omega
      rcases hA with rfl | rfl <;>
        simp [drainChangesST, nextChangesST, nextInf,
          ih none (Or.inl rfl) n hn]

theorem drainChangesST_eq (adds : List (Add K V)) (rems : List (Remove K V))
    (mods : List (ModifyST K V)) :
    ∀ fuel, adds.length + rems.length + mods.length ≤ fuel →
      drainChangesST fuel ⟨some adds, some rems, some mods⟩ =
        adds.map ChangeST.add ++ mods.map ChangeST.modify ++
          rems.map ChangeST.remove := by
  induction adds with
  | nil =>
    intro fuel hfuel
    simpa using drainChangesST_mods (some []) (Or.inr rfl) mods rems fuel
      (by simp at hfuel ⊢; omega)
  | cons a as ih =>
    intro fuel hfuel
    cases fuel with
    | zero => simp at hfuel
    | succ n =>
      have hn : as.length + rems.length + mods.length ≤ n := by simp at hfuel; omega
      simp [drainChangesST, nextChangesST, nextInf, ih n hn]

/-- C8: once an Additions, Removals or Modifications iterator has returned
"no more elements", every later call returns "no more elements" as well: the
wrapped InfallibleIter drops its inner iterator at first exhaustion, so it is
never advanced past exhaustion (in the embedding every next call is a total
pure function of the iterator state alone, so it cannot panic and leaves the
underlying changeset untouched). -/
theorem iterators_exhaustion_stable :
    (∀ st : Option (List (Add K V)), (nextAdditions st).1 = none →
      ∀ n, nextInfN n (nextAdditions st).2 = (none, none)) ∧
    (∀ st : Option (List (Remove K V)), (nextRemovals st).1 = none →
      ∀ n, nextInfN n (nextRemovals st).2 = (none, none)) ∧
    (∀ st : Option (List (Modify K C)), (nextModifications st).1 = none →
      ∀ n, nextInfN n (nextModifications st).2 = (none, none)) :=
  ⟨fun _ h n => infallible_stable h n,
    fun _ h n => infallible_stable h n,
    fun _ h n => infallible_stable h n⟩

/-- Witness for C8: a freshly exhausted iterator over an empty bucket keeps
returning "no more elements" on each of the three wrappers. -/
theorem iterators_exhaustion_stable_witness :
    ((nextAdditions (some ([] : List (Add Nat Nat)))).1 = none ∧
      nextInfN 2 (nextAdditions (some ([] : List (Add Nat Nat)))).2 = (none, none)) ∧
    ((nextRemovals (some ([] : List (Remove Nat Nat)))).1 = none ∧
      nextInfN 2 (nextRemovals (some ([] : List (Remove Nat Nat)))).2 = (none, none)) ∧
    ((nextModifications (some ([] : List (Modify Nat Nat)))).1 = none ∧
      nextInfN 2 (nextModifications (some ([] : List (Modify Nat Nat)))).2 =
        (none, none)) :=
  ⟨⟨rfl, (iterators_exhaustion_stable (K := Nat) (V := Nat) (C := Nat)).1
      (some []) rfl 2⟩,
    ⟨rfl, (iterators_exhaustion_stable (K := Nat) (V := Nat) (C := Nat)).2.1
      (some []) rfl 2⟩,
    ⟨rfl, (iterators_exhaustion_stable (K := Nat) (V := Nat) (C := Nat)).2.2
      (some []) rfl 2⟩⟩

/-- C9: pure_changes drains the additions iterator to exhaustion, then the
removals iterator: the resulting sequence is every Add entry followed by
every Remove entry, and (PureChange having only those two constructors) it
contains no Modify entry. -/
theorem pure_changes_order (cs : MapChangeset K V C) :
    ∀ fuel, cs.added.length + cs.removed.length ≤ fuel →
      drainPure fuel cs.pureInit =
        cs.added.map PureChange.add ++ cs.removed.map PureChange.remove :=
  fun fuel hfuel => drainPure_eq cs.added cs.removed fuel hfuel

/-- Witness for C9 at a concrete diff: one addition and one removal drain in
that order. -/
theorem pure_changes_order_witness :
    (mapSetDiff [(1, [1])] [(2, [2])]).added.length +
        (mapSetDiff [(1, [1])] [(2, [2])]).removed.length ≤ 5 ∧
      drainPure 5 (mapSetDiff [(1, [1])] [(2, [2])] :
          MapChangeset Nat (List Nat) (SetChangeset Nat)).pureInit =
        (mapSetDiff [(1, [1])] [(2, [2])]).added.map PureChange.add ++
          (mapSetDiff [(1, [1])] [(2, [2])]).removed.map PureChange.remove :=
  ⟨by decide, pure_changes_order (mapSetDiff [(1, [1])] [(2, [2])]) 5 (by decide)⟩

/-- C3: changes() yields every Add entry first, then every Remove entry, then
every Modify entry, for every changeset the engine builds: map changesets go
through the Changes iterator of iterators.rs, which drains its PureChanges
part (additions then removals) and then its modifications; set changesets go
through the older Changes iterator of mod.rs, whose modifications bucket is
statically empty, so it too yields all additions first, then all removals,
and no Modify entry. -/
theorem changes_order :
    (∀ (cs : MapChangeset K V C) fuel,
      cs.added.length + cs.removed.length + cs.modified.length ≤ fuel →
      drainChanges fuel cs.changesInit =
        cs.added.map Change.add ++ cs.removed.map Change.remove ++
          cs.modified.map Change.modify) ∧
    (∀ (cs : SetChangeset α) fuel,
      cs.added.length + cs.removed.length ≤ fuel →
      drainChangesST fuel cs.changesInit =
        cs.additionsList.map ChangeST.add ++
          cs.removalsList.map ChangeST.remove) := by
  constructor
  · intro cs fuel hfuel
    exact drainChanges_eq cs.added cs.removed cs.modified fuel hfuel
  · intro cs fuel hfuel
    have h := drainChangesST_eq cs.additionsList cs.removalsList
      cs.modificationsList fuel
      (by
        simp [SetChangeset.additionsList, SetChangeset.removalsList,
          SetChangeset.modificationsList]
        omega)
    simpa [SetChangeset.changesInit, SetChangeset.modificationsList] using h

/-- Witness for C3 at concrete diffs: a map changeset with one entry per
bucket drains as Add, Remove, Modify; the set changeset of scenario B drains
as Add 4 then Remove 1. -/
theorem changes_order_witness :
    ((mapSetDiff [(1, [1]), (2, [2])] [(2, [3]), (3, [1])]).added.length +
        (mapSetDiff [(1, [1]), (2, [2])] [(2, [3]), (3, [1])]).removed.length +
        (mapSetDiff [(1, [1]), (2, [2])] [(2, [3]), (3, [1])]).modified.length ≤ 9 ∧
      drainChanges 9 (mapSetDiff [(1, [1]), (2, [2])] [(2, [3]), (3, [1])] :
          MapChangeset Nat (List Nat) (SetChangeset Nat)).changesInit =
        (mapSetDiff [(1, [1]), (2, [2])] [(2, [3]), (3, [1])]).added.map Change.add ++
          (mapSetDiff [(1, [1]), (2, [2])] [(2, [3]), (3, [1])]).removed.map
            Change.remove ++
          (mapSetDiff [(1, [1]), (2, [2])] [(2, [3]), (3, [1])]).modified.map
            Change.modify) ∧
    ((changeset_to [1, 2, 3] [2, 3, 4]).added.length +
        (changeset_to [1, 2, 3] [2, 3, 4]).removed.length ≤ 9 ∧
      drainChangesST 9 (changeset_to ([1, 2, 3] : List Nat) [2, 3, 4]).changesInit =
        (changeset_to [1, 2, 3] [2, 3, 4]).additionsList.map ChangeST.add ++
          (changeset_to [1, 2, 3] [2, 3, 4]).removalsList.map ChangeST.remove) :=
  ⟨⟨by decide, (changes_order (K := Nat) (V := List Nat) (C := SetChangeset Nat)
      (α := Nat)).1 (mapSetDiff [(1, [1]), (2, [2])] [(2, [3]), (3, [1])])
      9 (by decide)⟩,
    ⟨by decide, (changes_order (K := Nat) (V := List Nat) (C := SetChangeset Nat)
      (α := Nat)).2 (changeset_to [1, 2, 3] [2, 3, 4]) 9 (by decide)⟩⟩

/-! ### Modify gating at the set-valued instance -/

theorem setEqb_true_iff_is_empty [DecidableEq α] (s t : List α) :
    setEqb s t = true ↔ (changeset_to s t).is_empty = true := by
  simp only [setEqb, changeset_to, SetChangeset.is_empty, Bool.and_eq_true,
    decide_eq_true_eq, List.isEmpty_iff, List.filter_eq_nil_iff,
    Bool.not_eq_true', decide_eq_false_iff_not, not_not]
  tauto

theorem setEqb_false_iff_hasChanges [DecidableEq α] (s t : List α) :
    setEqb s t = false ↔ setHasChanges (changeset_to s t) = true := by
  have h := setEqb_true_iff_is_empty s t
  rw [setHasChanges]
  constructor
  · intro hf
    have : ¬(changeset_to s t).is_empty = true := fun he =>
      by rw [h.2 he] at hf; cases hf
    simp [Bool.not_eq_true] at this
    simp [this]
  · intro hc
    have he : (changeset_to s t).is_empty = false := by
      rcases hb : (changeset_to s t).is_empty with _ | _
      · rfl
      · rw [hb] at hc; cases hc
    rcases hq : setEqb s t with _ | _
    · rfl
    · rw [h.1 hq] at he; cases he

/-- C2: at the repository's set-valued map instance, the differ emits a
Modify entry for a key present in both maps iff the value-level diff of the
two values has changes (the code's gate `!source.eq(target)` coincides with
`has_changes` of the set diff); a key with equal values appears in no output
bucket; and every emitted Modify entry carries a modification with
has_changes. -/
theorem map_modify_gating [DecidableEq K] [DecidableEq α]
    (source target : List (K × List α)) (k : K) (s t : List α)
    (hs : getVal source k = some s) (ht : getVal target k = some t) :
    ((∃ m ∈ (mapSetDiff source target).modified, m.key = k) ↔
      setHasChanges (changeset_to s t) = true) ∧
    (setEqb s t = true →
      k ∉ (mapSetDiff source target).addedKeys ∧
        k ∉ (mapSetDiff source target).removedKeys ∧
        k ∉ (mapSetDiff source target).modifiedKeys) ∧
    (∀ m ∈ (mapSetDiff source target).modified,
      setHasChanges m.modification = true) := by
  refine ⟨⟨?_, ?_⟩, ?_, ?_⟩
  · rintro ⟨m, hm, hk⟩
    rw [mapSetDiff, mapDiff_eq, mem_modOf] at hm
    obtain ⟨_, sv, tv, hs', ht', he, _⟩ := hm
    rw [hk, hs] at hs'
    rw [hk, ht] at ht'
    have hsv : sv = s := by injection hs'.symm
    have htv : tv = t := by injection ht'.symm
    rw [hsv, htv] at he
    exact (setEqb_false_iff_hasChanges s t).1 he
  · intro hc
    have he := (setEqb_false_iff_hasChanges s t).2 hc
    have hmem := (mem_modifiedKeys setEqb changeset_to source target k).2
      ⟨s, t, hs, ht, he⟩
    rw [MapChangeset.modifiedKeys, List.mem_map] at hmem
    obtain ⟨m, hm, hk⟩ := hmem
    exact ⟨m, hm, hk⟩
  · intro heq
    refine ⟨?_, ?_, ?_⟩
    · intro hmem
      rw [mapSetDiff, mem_addedKeys] at hmem
      rw [hs] at hmem
      exact Option.noConfusion hmem.1
    · intro hmem
      rw [mapSetDiff, mem_removedKeys] at hmem
      rw [ht] at hmem
      exact Option.noConfusion hmem.2
    · intro hmem
      rw [mapSetDiff, mem_modifiedKeys] at hmem
      obtain ⟨sv, tv, hs', ht', he⟩ := hmem
      rw [hs] at hs'
      rw [ht] at ht'
      have hsv : sv = s := by injection hs'.symm
      have htv : tv = t := by injection ht'.symm
      rw [hsv, htv, heq] at he
      cases he
  · intro m hm
    rw [mapSetDiff, mapDiff_eq, mem_modOf] at hm
    obtain ⟨_, sv, tv, _, _, he, hmod⟩ := hm
    rw [hmod]
    exact (setEqb_false_iff_hasChanges sv tv).1 he

/-- Witness for C2 at a concrete input: key 1 maps to {1,2} in source and to
{1} in target, so a Modify entry is emitted and its modification has
changes. -/
theorem map_modify_gating_witness :
    getVal [(1, [1, 2])] 1 = some [1, 2] ∧
    getVal [(1, [1])] 1 = some [1] ∧
    (((∃ m ∈ (mapSetDiff [(1, [1, 2])] [(1, [1])] :
        MapChangeset Nat (List Nat) (SetChangeset Nat)).modified, m.key = 1) ↔
      setHasChanges (changeset_to [1, 2] [1]) = true) ∧
    (setEqb [1, 2] [1] = true →
      1 ∉ (mapSetDiff [(1, [1, 2])] [(1, [1])]).addedKeys ∧
        1 ∉ (mapSetDiff [(1, [1, 2])] [(1, [1])]).removedKeys ∧
        1 ∉ (mapSetDiff [(1, [1, 2])] [(1, [1])]).modifiedKeys) ∧
    (∀ m ∈ (mapSetDiff [(1, [1, 2])] [(1, [1])]).modified,
      setHasChanges m.modification = true)) :=
  ⟨by decide, by decide,
    map_modify_gating [(1, [1, 2])] [(1, [1])] 1 [1, 2] [1] (by decide) (by decide)⟩

end Changeset
